import Mathlib

/-!
Verification of the asynchronous request-streaming engine of
src/jina/peapods/stream/base.py (class BaseStreamer).

The two engines are shallowly embedded as pure functions:

* a Req packages one request together with the behaviour of the external
  dispatcher on it: the stable request identifier, the completion timestamp of
  the asyncio.Future returned by handle_request, and the outcome that
  future.result() eventually reports (a value or an exception);
* an Input is the Request Source: it lazily produces its listed requests in
  order and afterwards either ends normally or raises a producer fault;
* a Run records everything the caller and the dispatcher can observe of one
  streaming call: the yielded results in order, how the stream ended, the
  identifiers passed to handle_request in dispatch order, the dispatch
  positions whose future.result() was read (in reading order), the number of
  handle_end_of_iter invocations, the number of error-level log records, and
  the peak number of dispatched-but-unyielded requests.

The unbounded engine is modelled under the schedule in which the producer task
runs to completion (dispatching every request and attaching its completion
callback) before the consumer drains the completion queue; completions are
enqueued in completion-time order, so the queue the consumer sees is the
dispatch list sorted by completion time.  With pairwise distinct request
identifiers every other interleaving produces the same observable Run.
-/

namespace Jina

/-- One request together with the behaviour of the external dispatcher on it.
The field request_id is request.request_id in the source, time is the
completion timestamp of the future returned by handle_request, and outcome is
what future.result() gives back once the operation finished. -/
structure Req (ρ ε : Type) where
  request_id : Nat
  time : Nat
  outcome : Except ε ρ

/-- Modelled from the spec: AsyncRequestsIterator (imported from
src/jina/peapods/stream/helper.py, which is not in the source tree).  The
Request Source produces reqs in order; after them it either ends normally or,
when fault is true, raises a producer fault while being iterated. -/
structure Input (ρ ε : Type) where
  reqs : List (Req ρ ε)
  fault : Bool

/-- How one streaming call ends for the caller: the generator returns
normally, an exception stored in a future propagates out of the generator
(failed), requests_to_handle.remove raises KeyError, the producer fault
propagates out of the generator, or the consumer waits forever on a completion
queue that can never be filled again. -/
inductive Ending (ε : Type) where
  | normal
  | failed (e : ε)
  | keyError
  | producerFault
  | hang
  deriving DecidableEq

/-- Observable trace of one streaming call. -/
structure Run (σ ε : Type) where
  yields : List σ
  ending : Ending ε
  dispatched : List Nat
  consumed : List Nat
  eoi_calls : Nat
  error_logs : Nat
  peak_inflight : Nat

/-- Python set.add on the PendingSet requests_to_handle: insert the identifier
unless it is already present. -/
def setAdd (s : List Nat) (x : Nat) : List Nat :=
  if x ∈ s then s else s ++ [x]

/-- Contents of requests_to_handle after the producer added every request
identifier (source line 112). -/
def pendingOf (reqs : List (Req ρ ε)) : List Nat :=
  reqs.foldl (fun s r => setAdd s r.request_id) []

/-- Replace the outcome of an operation, leaving identifier and timing alone. -/
def setOutcome (r : Req ρ ε) (o : Except ε ρ) : Req ρ ε :=
  { r with outcome := o }

/-- Model of callback_wrapper (source lines 85 to 100): the entry that the
completion callback of the operation dispatched at position i for request r
pushes onto result_queue.  It pairs the request identifier with the operation
handle itself; the outcome field is carried through untouched and never read
here. -/
def callback_entry (i : Nat) (r : Req ρ ε) : Nat × (Nat × Req ρ ε) :=
  (r.request_id, (i, r))

/-- Dispatched operations ordered by completion time: the order in which their
done callbacks run and enqueue completion entries.  Each operation is tagged
with its dispatch position. -/
def sortByTime (l : List (Nat × Req ρ ε)) : List (Nat × Req ρ ε) :=
  l.insertionSort (fun a b => a.2.time ≤ b.2.time)

/-- Completion queue contents of the unbounded engine once every dispatched
operation has completed: all requests, tagged with dispatch positions, in
completion-time order. -/
def completionQueue (reqs : List (Req ρ ε)) : List (Nat × Req ρ ε) :=
  sortByTime reqs.enum

/-- Boolean success test on an outcome. -/
def isOk : Except ε ρ → Bool
  | .ok _ => true
  | .error _ => false

/-- Every listed request has a successful outcome. -/
def allOk (reqs : List (Req ρ ε)) : Prop :=
  ∀ r ∈ reqs, isOk r.outcome = true

/-- Every listed dispatched operation has a successful outcome. -/
def allOkE (l : List (Nat × Req ρ ε)) : Prop :=
  ∀ p ∈ l, isOk p.2.outcome = true

/-- The request identifiers are pairwise distinct. -/
def distinctIds (reqs : List (Req ρ ε)) : Prop :=
  (reqs.map Req.request_id).Nodup

/-- Transformed results of the successful outcomes in a list of tagged
operations, in list order (handle_result applied to each successful
future.result()). -/
def okVals (f : ρ → σ) (l : List (Nat × Req ρ ε)) : List σ :=
  l.filterMap fun p =>
    match p.2.outcome with
    | .ok v => some (f v)
    | .error _ => none

/-- Consumer loop of _stream_requests (source lines 121 to 137).  The
argument eoi is the end_of_iter event (already set in the modelled schedule
unless the producer faulted), pending is requests_to_handle, and the last
argument is the completion queue still to be drained.  Returns the yielded
results, the way the loop ends, and the dispatch positions whose
future.result() was read, in reading order.  The loop exits normally when
pending is empty and eoi is set (all_requests_handled); on a queue entry it
reads the result (propagating a stored exception out of the generator), yields
it, then removes the identifier from pending, raising KeyError when the
identifier is absent; when the queue can never be refilled the loop waits
forever. -/
def consume (f : ρ → σ) (eoi : Bool) :
    List Nat → List (Nat × Req ρ ε) → List σ × Ending ε × List Nat
  | pending, [] =>
    if pending = [] ∧ eoi = true then ([], .normal, []) else ([], .hang, [])
  | pending, (i, r) :: rest =>
    if pending = [] ∧ eoi = true then ([], .normal, [])
    else
      match r.outcome with
      | .error e => ([], .failed e, [i])
      | .ok v =>
        if r.request_id ∈ pending then
          let out := consume f eoi (pending.erase r.request_id) rest
          (f v :: out.1, out.2.1, i :: out.2.2)
        else ([f v], .keyError, [i])

/-- The unbounded engine _stream_requests (source lines 72 to 137), run under
the producer-first schedule described in the file header.  The producer adds
every identifier to the PendingSet and dispatches every request in source
order; when the source is exhausted it calls handle_end_of_iter once and sets
end_of_iter, but when the source raises, the exception stays inside the
producer task (which nothing awaits), so neither happens.  The consumer then
drains the completion queue. -/
def stream_requests (f : ρ → σ) (inp : Input ρ ε) : Run σ ε :=
  let out := consume f (!inp.fault) (pendingOf inp.reqs) (completionQueue inp.reqs)
  { yields := out.1
    ending := out.2.1
    dispatched := inp.reqs.map Req.request_id
    consumed := out.2.2
    eoi_calls := if inp.fault then 0 else 1
    error_logs := 0
    peak_inflight := inp.reqs.length }

/-- Helper iterate_requests of _stream_requests_with_prefetch (source lines
149 to 166): starting from count already-pulled requests, keep pulling
requests, dispatching each and appending its operation to the accumulator,
until count reaches num_req (returning some false) or the source is exhausted
(returning some true, or none when the source raises the producer fault at
that pull).  Returns the accumulator, the remaining source, and that result. -/
def iterate_requests (num_req : Nat) (fault : Bool) :
    Nat → List (Req ρ ε) → List (Req ρ ε) →
      List (Req ρ ε) × List (Req ρ ε) × Option Bool
  | _, acc, [] => (acc, [], if fault then none else some true)
  | count, acc, r :: rest =>
    if count + 1 = num_req then (acc ++ [r], rest, some false)
    else iterate_requests num_req fault (count + 1) (acc ++ [r]) rest

/-- Steady-state interleave of _stream_requests_with_prefetch (source lines
183 to 206).  cur is the remainder of as_completed(prefetch_task) for the
current window, in completion order; onrecv is onrecv_task; rem and fault are
the remaining Request Source; empt is is_req_empty; idx is the dispatch
position of the next refilled request.  Each completed operation is awaited
(propagating a stored exception out of the generator) and its transformed
result yielded; while is_req_empty is false each yield is followed by
iterate_requests(1, onrecv_task), which dispatches exactly one request or
observes exhaustion or the producer fault; when the current window dries it is
replaced by onrecv_task sorted by completion, and an empty replacement ends
the loop.  Returns the yields, the ending, the identifiers dispatched by
refills in dispatch order, the dispatch positions read in reading order, and
the peak over the call of the dispatched-but-unyielded count, which at entry
is the number of operations in cur plus onrecv. -/
def drain_loop (f : ρ → σ) :
    List (Nat × Req ρ ε) → List (Nat × Req ρ ε) → List (Req ρ ε) →
      Bool → Bool → Nat → List σ × Ending ε × List Nat × List Nat × Nat
  | [], onrecv, rem, fault, empt, idx =>
    if _h : onrecv.isEmpty = true then ([], .normal, [], [], 0)
    else
      let out := drain_loop f (sortByTime onrecv) [] rem fault empt idx
      (out.1, out.2.1, out.2.2.1, out.2.2.2.1, max onrecv.length out.2.2.2.2)
  | (i, r) :: cs, onrecv, rem, fault, empt, idx =>
    match r.outcome with
    | .error e => ([], .failed e, [], [i], cs.length + 1 + onrecv.length)
    | .ok v =>
      if empt then
        let out := drain_loop f cs onrecv rem fault true idx
        (f v :: out.1, out.2.1, out.2.2.1, i :: out.2.2.2.1,
          max (cs.length + 1 + onrecv.length) out.2.2.2.2)
      else
        match rem with
        | [] =>
          if fault then
            ([f v], .producerFault, [], [i], cs.length + 1 + onrecv.length)
          else
            let out := drain_loop f cs onrecv [] fault true idx
            (f v :: out.1, out.2.1, out.2.2.1, i :: out.2.2.2.1,
              max (cs.length + 1 + onrecv.length) out.2.2.2.2)
        | q :: qs =>
          let out := drain_loop f cs (onrecv ++ [(idx, q)]) qs fault false (idx + 1)
          (f v :: out.1, out.2.1, q.request_id :: out.2.2.1, i :: out.2.2.2.1,
            max (cs.length + 1 + onrecv.length) out.2.2.2.2)
termination_by cur onrecv rem _ _ _ => (rem.length, cur.length + onrecv.length, onrecv.length)
decreasing_by
  · have hp : 0 < onrecv.length := by cases onrecv <;> simp_all
    simp [Prod.lex_iff, sortByTime, List.length_insertionSort]
    omega
  · simp [Prod.lex_iff]
  · simp [Prod.lex_iff]
  · simp [Prod.lex_iff]

/-- Short-input drain of _stream_requests_with_prefetch (source lines 179 to
182): await the operations of the only window in completion order, yielding
each transformed result; a stored exception propagates out of the generator.
Returns yields, ending, and the dispatch positions read. -/
def drainNoRefill (f : ρ → σ) :
    List (Nat × Req ρ ε) → List σ × Ending ε × List Nat
  | [] => ([], .normal, [])
  | (i, r) :: rest =>
    match r.outcome with
    | .error e => ([], .failed e, [i])
    | .ok v =>
      let out := drainNoRefill f rest
      (f v :: out.1, out.2.1, i :: out.2.2)

/-- The prefetch engine _stream_requests_with_prefetch (source lines 139 to
206).  Fill the initial window with up to pf requests; a producer fault while
filling propagates before anything is yielded.  When the window is empty and
the source exhausted, log one error record and return.  When the source was
exhausted while filling (total requests below pf), drain the window in
completion order without refills.  Otherwise run the steady-state interleave
on the window sorted by completion.  Note that no branch ever invokes
handle_end_of_iter. -/
def stream_requests_with_prefetch (f : ρ → σ) (inp : Input ρ ε) (pf : Nat) :
    Run σ ε :=
  match iterate_requests pf inp.fault 0 [] inp.reqs with
  | (acc, _, none) =>
    { yields := [], ending := .producerFault,
      dispatched := acc.map Req.request_id, consumed := [],
      eoi_calls := 0, error_logs := 0, peak_inflight := acc.length }
  | (acc, rest, some empt) =>
    if acc.isEmpty = true then
      { yields := [], ending := .normal, dispatched := [], consumed := [],
        eoi_calls := 0, error_logs := 1, peak_inflight := 0 }
    else if empt then
      let out := drainNoRefill f (sortByTime acc.enum)
      { yields := out.1, ending := out.2.1,
        dispatched := acc.map Req.request_id, consumed := out.2.2,
        eoi_calls := 0, error_logs := 0, peak_inflight := acc.length }
    else
      let out := drain_loop f (sortByTime acc.enum) [] rest inp.fault false acc.length
      { yields := out.1, ending := out.2.1,
        dispatched := acc.map Req.request_id ++ out.2.2.1,
        consumed := out.2.2.2.1,
        eoi_calls := 0, error_logs := 0,
        peak_inflight := max acc.length out.2.2.2.2 }

/-- Scenario A of the spec: requests A, B, C with identifiers 0, 1, 2,
handling delays 30, 10, 20 and result payloads 100, 200, 300. -/
def exScenarioA : Input Nat Nat :=
  ⟨[⟨0, 30, .ok 100⟩, ⟨1, 10, .ok 200⟩, ⟨2, 20, .ok 300⟩], false⟩

/-- Three distinct requests; the one completing second (at time 20) fails. -/
def exErrMid : Input Nat Nat :=
  ⟨[⟨0, 20, .error 9⟩, ⟨1, 10, .ok 5⟩, ⟨2, 30, .ok 7⟩], false⟩

/-- Two distinct requests; the first-completing operation fails. -/
def exErrFirst : Input Nat Nat :=
  ⟨[⟨0, 1, .error 99⟩, ⟨1, 4, .ok 2⟩], false⟩

/-- One successful request, then the Request Source raises. -/
def exFaultOne : Input Nat Nat := ⟨[⟨0, 5, .ok 1⟩], true⟩

/-- Three successful requests, then the Request Source raises. -/
def exFaultThree : Input Nat Nat :=
  ⟨[⟨0, 9, .ok 1⟩, ⟨1, 4, .ok 2⟩, ⟨2, 5, .ok 3⟩], true⟩

/-- Two requests sharing identifier 7. -/
def exDupTwo : Input Nat Nat := ⟨[⟨7, 1, .ok 10⟩, ⟨7, 2, .ok 20⟩], false⟩

/-- Two requests sharing identifier 7 followed by a distinct one, with the
duplicated pair completing first. -/
def exDupThree : Input Nat Nat :=
  ⟨[⟨7, 1, .ok 1⟩, ⟨7, 2, .ok 2⟩, ⟨8, 3, .ok 3⟩], false⟩

/-- Four successful requests for prefetch size 2: the first window holds
requests 0 (completes at 10) and 1 (completes at 1); the refilled request 2
completes at 3, before request 0 of the first window, and request 3 completes
last at 20. -/
def exCross : Input Nat Nat :=
  ⟨[⟨0, 10, .ok 1⟩, ⟨1, 1, .ok 2⟩, ⟨2, 3, .ok 3⟩, ⟨3, 20, .ok 4⟩], false⟩

end Jina

namespace Jina

/-! Basic facts about the sort, the completion queue and the PendingSet. -/

theorem sortByTime_perm (l : List (Nat × Req ρ ε)) : (sortByTime l).Perm l :=
  List.perm_insertionSort _ l

theorem length_sortByTime (l : List (Nat × Req ρ ε)) :
    (sortByTime l).length = l.length :=
  List.length_insertionSort _ l

theorem sortByTime_eq_nil_iff (l : List (Nat × Req ρ ε)) :
    sortByTime l = [] ↔ l = [] := by
  constructor
  · intro h
    have := length_sortByTime l
    rw [h] at this
    exact List.length_eq_zero.mp this.symm
  · intro h
    subst h
    rfl

theorem allOkE_of_perm {l l' : List (Nat × Req ρ ε)} (hp : l.Perm l')
    (h : allOkE l) : allOkE l' := by
  intro p hpmem
  exact h p (hp.mem_iff.mpr hpmem)

theorem allOkE_sortByTime {l : List (Nat × Req ρ ε)} (h : allOkE l) :
    allOkE (sortByTime l) :=
  allOkE_of_perm (sortByTime_perm l).symm h

theorem allOkE_enum {reqs : List (Req ρ ε)} (h : allOk reqs) :
    allOkE reqs.enum := by
  intro p hp
  apply h
  have : p.2 ∈ reqs.enum.map Prod.snd := List.mem_map_of_mem Prod.snd hp
  rwa [List.enum_map_snd] at this

theorem length_okVals {l : List (Nat × Req ρ ε)} (f : ρ → σ) (h : allOkE l) :
    (okVals f l).length = l.length := by
  induction l with
  | nil => rfl
  | cons p rest ih =>
    have hp := h p (List.mem_cons_self p rest)
    have hrest : allOkE rest := fun q hq => h q (List.mem_cons_of_mem p hq)
    cases ho : p.2.outcome with
    | ok v => simp [okVals, ho] at ih ⊢; exact ih hrest
    | error e => rw [ho] at hp; simp [isOk] at hp

theorem okVals_cons_ok {p : Nat × Req ρ ε} {v : ρ} (f : ρ → σ)
    (h : p.2.outcome = .ok v) (l : List (Nat × Req ρ ε)) :
    okVals f (p :: l) = f v :: okVals f l := by
  simp [okVals, h]

theorem map_fst_completionQueue_perm (reqs : List (Req ρ ε)) :
    ((completionQueue reqs).map Prod.fst).Perm (List.range reqs.length) := by
  have h1 := (sortByTime_perm reqs.enum).map Prod.fst
  rwa [List.enum_map_fst] at h1

theorem nodup_map_fst_completionQueue (reqs : List (Req ρ ε)) :
    ((completionQueue reqs).map Prod.fst).Nodup :=
  (map_fst_completionQueue_perm reqs).nodup_iff.mpr (List.nodup_range _)

theorem map_rid_completionQueue_perm (reqs : List (Req ρ ε)) :
    ((completionQueue reqs).map fun p => p.2.request_id).Perm
      (reqs.map Req.request_id) := by
  have h1 := (sortByTime_perm reqs.enum).map fun p => p.2.request_id
  have h2 : (reqs.enum.map fun p => p.2.request_id)
      = reqs.map Req.request_id := by
    calc (reqs.enum.map fun p => p.2.request_id)
        = (reqs.enum.map Prod.snd).map Req.request_id := by
          rw [List.map_map]
          rfl
      _ = reqs.map Req.request_id := by rw [List.enum_map_snd]
  rwa [h2] at h1

theorem length_completionQueue (reqs : List (Req ρ ε)) :
    (completionQueue reqs).length = reqs.length := by
  rw [completionQueue, length_sortByTime, List.enum_length]

theorem allOkE_completionQueue {reqs : List (Req ρ ε)} (h : allOk reqs) :
    allOkE (completionQueue reqs) :=
  allOkE_sortByTime (allOkE_enum h)

theorem foldl_setAdd_of_nodup :
    ∀ (ids : List Nat) (s : List Nat), (s ++ ids).Nodup →
      List.foldl setAdd s ids = s ++ ids := by
  intro ids
  induction ids with
  | nil => intro s _; simp
  | cons x rest ih =>
    intro s hnd
    have hx : x ∉ s := by
      rw [List.nodup_append] at hnd
      intro hmem
      exact hnd.2.2 hmem (List.mem_cons_self x rest)
    have hstep : setAdd s x = s ++ [x] := by simp [setAdd, hx]
    have hnd' : ((s ++ [x]) ++ rest).Nodup := by
      simpa [List.append_assoc] using hnd
    calc List.foldl setAdd s (x :: rest)
        = List.foldl setAdd (s ++ [x]) rest := by rw [List.foldl_cons, hstep]
      _ = (s ++ [x]) ++ rest := ih (s ++ [x]) hnd'
      _ = s ++ x :: rest := by simp

theorem pendingOf_eq_of_distinct {reqs : List (Req ρ ε)} (h : distinctIds reqs) :
    pendingOf reqs = reqs.map Req.request_id := by
  rw [pendingOf, ← List.foldl_map]
  exact foldl_setAdd_of_nodup _ [] (by simpa [distinctIds] using h)

/-! Characterizations of the unbounded consumer loop. -/

theorem consume_all_ok (f : ρ → σ) :
    ∀ (queue : List (Nat × Req ρ ε)) (pending : List Nat),
      allOkE queue →
      pending.Perm (queue.map fun p => p.2.request_id) →
      (queue.map fun p => p.2.request_id).Nodup →
      consume f true pending queue
        = (okVals f queue, .normal, queue.map Prod.fst) := by
  intro queue
  induction queue with
  | nil =>
    intro pending _ hperm _
    have hp : pending = [] := List.perm_nil.mp (by simpa using hperm)
    simp [consume, hp, okVals]
  | cons p rest ih =>
    intro pending hall hperm hnd
    obtain ⟨i, r⟩ := p
    have hok := hall (i, r) (List.mem_cons_self _ _)
    cases ho : r.outcome with
    | error e => rw [ho] at hok; simp [isOk] at hok
    | ok v =>
      have hpne : pending ≠ [] := by
        intro hno
        rw [hno] at hperm
        have := hperm.length_eq
        simp at this
      have hmem : r.request_id ∈ pending := by
        apply hperm.mem_iff.mpr
        simp
      have hperm' : (pending.erase r.request_id).Perm
          (rest.map fun p => p.2.request_id) := by
        have := hperm.erase r.request_id
        simpa [List.map_cons, List.erase_cons_head] using this
      have hnd' : (rest.map fun p => p.2.request_id).Nodup := by
        simp [List.nodup_cons] at hnd
        exact hnd.2
      have hrest : allOkE rest := fun q hq => hall q (List.mem_cons_of_mem _ hq)
      have hr := ih (pending.erase r.request_id) hrest hperm' hnd'
      simp [consume, hpne, ho, hmem, hr, okVals]

theorem consume_no_eoi (f : ρ → σ) :
    ∀ (queue : List (Nat × Req ρ ε)) (pending : List Nat),
      allOkE queue →
      pending.Perm (queue.map fun p => p.2.request_id) →
      (queue.map fun p => p.2.request_id).Nodup →
      consume f false pending queue
        = (okVals f queue, .hang, queue.map Prod.fst) := by
  intro queue
  induction queue with
  | nil =>
    intro pending _ _ _
    simp [consume, okVals]
  | cons p rest ih =>
    intro pending hall hperm hnd
    obtain ⟨i, r⟩ := p
    have hok := hall (i, r) (List.mem_cons_self _ _)
    cases ho : r.outcome with
    | error e => rw [ho] at hok; simp [isOk] at hok
    | ok v =>
      have hmem : r.request_id ∈ pending := by
        apply hperm.mem_iff.mpr
        simp
      have hperm' : (pending.erase r.request_id).Perm
          (rest.map fun p => p.2.request_id) := by
        have := hperm.erase r.request_id
        simpa [List.map_cons, List.erase_cons_head] using this
      have hnd' : (rest.map fun p => p.2.request_id).Nodup := by
        simp [List.nodup_cons] at hnd
        exact hnd.2
      have hrest : allOkE rest := fun q hq => hall q (List.mem_cons_of_mem _ hq)
      have hr := ih (pending.erase r.request_id) hrest hperm' hnd'
      simp [consume, ho, hmem, hr, okVals]

theorem consume_err (f : ρ → σ) :
    ∀ (q1 : List (Nat × Req ρ ε)) (i : Nat) (r : Req ρ ε)
      (q2 : List (Nat × Req ρ ε)) (pending : List Nat) (e : ε),
      allOkE q1 →
      r.outcome = .error e →
      pending.Perm ((q1 ++ (i, r) :: q2).map fun p => p.2.request_id) →
      ((q1 ++ (i, r) :: q2).map fun p => p.2.request_id).Nodup →
      consume f true pending (q1 ++ (i, r) :: q2)
        = (okVals f q1, .failed e, q1.map Prod.fst ++ [i]) := by
  intro q1
  induction q1 with
  | nil =>
    intro i r q2 pending e _ herr hperm _
    have hpne : pending ≠ [] := by
      intro hno
      rw [hno] at hperm
      have := hperm.length_eq
      simp at this
    simp [consume, hpne, herr, okVals]
  | cons p rest ih =>
    intro i r q2 pending e hall herr hperm hnd
    obtain ⟨j, s⟩ := p
    have hok := hall (j, s) (List.mem_cons_self _ _)
    cases ho : s.outcome with
    | error e' => rw [ho] at hok; simp [isOk] at hok
    | ok v =>
      have hpne : pending ≠ [] := by
        intro hno
        rw [hno] at hperm
        have := hperm.length_eq
        simp at this
      have hmem : s.request_id ∈ pending := by
        apply hperm.mem_iff.mpr
        simp
      have hperm' : (pending.erase s.request_id).Perm
          ((rest ++ (i, r) :: q2).map fun p => p.2.request_id) := by
        have := hperm.erase s.request_id
        simpa [List.map_cons, List.erase_cons_head] using this
      have hnd' : ((rest ++ (i, r) :: q2).map fun p => p.2.request_id).Nodup := by
        simp [List.nodup_cons] at hnd ⊢
        exact hnd.2
      have hrest : allOkE rest := fun q hq => hall q (List.mem_cons_of_mem _ hq)
      have hr := ih i r q2 (pending.erase s.request_id) e hrest herr hperm' hnd'
      simp [consume, hpne, ho, hmem, hr, okVals]

theorem consume_consumed_take (f : ρ → σ) (eoi : Bool) :
    ∀ (queue : List (Nat × Req ρ ε)) (pending : List Nat),
      ∃ n, (consume f eoi pending queue).2.2 = (queue.map Prod.fst).take n := by
  intro queue
  induction queue with
  | nil =>
    intro pending
    refine ⟨0, ?_⟩
    by_cases hc : pending = [] ∧ eoi = true <;> simp [consume, hc]
  | cons p rest ih =>
    intro pending
    obtain ⟨i, r⟩ := p
    by_cases hc : pending = [] ∧ eoi = true
    · exact ⟨0, by simp [consume, hc]⟩
    · cases ho : r.outcome with
      | error e => exact ⟨1, by simp [consume, hc, ho]⟩
      | ok v =>
        by_cases hm : r.request_id ∈ pending
        · obtain ⟨n, hn⟩ := ih (pending.erase r.request_id)
          exact ⟨n + 1, by simp [consume, hc, ho, hm, hn]⟩
        · exact ⟨1, by simp [consume, hc, ho, hm]⟩

theorem consume_len (f : ρ → σ) (eoi : Bool) :
    ∀ (queue : List (Nat × Req ρ ε)) (pending : List Nat),
      (consume f eoi pending queue).1.length
          ≤ (consume f eoi pending queue).2.2.length ∧
        (consume f eoi pending queue).2.2.length
          ≤ (consume f eoi pending queue).1.length + 1 := by
  intro queue
  induction queue with
  | nil =>
    intro pending
    by_cases hc : pending = [] ∧ eoi = true <;> simp [consume, hc]
  | cons p rest ih =>
    intro pending
    obtain ⟨i, r⟩ := p
    by_cases hc : pending = [] ∧ eoi = true
    · simp [consume, hc]
    · cases ho : r.outcome with
      | error e => simp [consume, hc, ho]
      | ok v =>
        by_cases hm : r.request_id ∈ pending
        · have := ih (pending.erase r.request_id)
          simp [consume, hc, ho, hm]
          omega
        · simp [consume, hc, ho, hm]

/-! Characterizations of the short-input drain of the prefetch engine. -/

theorem drainNoRefill_all_ok (f : ρ → σ) :
    ∀ (l : List (Nat × Req ρ ε)), allOkE l →
      drainNoRefill f l = (okVals f l, .normal, l.map Prod.fst) := by
  intro l
  induction l with
  | nil => intro _; simp [drainNoRefill, okVals]
  | cons p rest ih =>
    intro hall
    obtain ⟨i, r⟩ := p
    have hok := hall (i, r) (List.mem_cons_self _ _)
    cases ho : r.outcome with
    | error e => rw [ho] at hok; simp [isOk] at hok
    | ok v =>
      have hrest : allOkE rest := fun q hq => hall q (List.mem_cons_of_mem _ hq)
      simp [drainNoRefill, ho, ih hrest, okVals]

theorem drainNoRefill_err (f : ρ → σ) :
    ∀ (q1 : List (Nat × Req ρ ε)) (i : Nat) (r : Req ρ ε)
      (q2 : List (Nat × Req ρ ε)) (e : ε),
      allOkE q1 → r.outcome = .error e →
      drainNoRefill f (q1 ++ (i, r) :: q2)
        = (okVals f q1, .failed e, q1.map Prod.fst ++ [i]) := by
  intro q1
  induction q1 with
  | nil =>
    intro i r q2 e _ herr
    simp [drainNoRefill, herr, okVals]
  | cons p rest ih =>
    intro i r q2 e hall herr
    obtain ⟨j, s⟩ := p
    have hok := hall (j, s) (List.mem_cons_self _ _)
    cases ho : s.outcome with
    | error e' => rw [ho] at hok; simp [isOk] at hok
    | ok v =>
      have hrest : allOkE rest := fun q hq => hall q (List.mem_cons_of_mem _ hq)
      simp [drainNoRefill, ho, ih i r q2 e hrest herr, okVals]

theorem drainNoRefill_consumed_take (f : ρ → σ) :
    ∀ (l : List (Nat × Req ρ ε)),
      ∃ n, (drainNoRefill f l).2.2 = (l.map Prod.fst).take n := by
  intro l
  induction l with
  | nil => exact ⟨0, by simp [drainNoRefill]⟩
  | cons p rest ih =>
    obtain ⟨i, r⟩ := p
    cases ho : r.outcome with
    | error e => exact ⟨1, by simp [drainNoRefill, ho]⟩
    | ok v =>
      obtain ⟨n, hn⟩ := ih
      exact ⟨n + 1, by simp [drainNoRefill, ho, hn]⟩

theorem drainNoRefill_len (f : ρ → σ) :
    ∀ (l : List (Nat × Req ρ ε)),
      (drainNoRefill f l).1.length ≤ (drainNoRefill f l).2.2.length ∧
        (drainNoRefill f l).2.2.length ≤ (drainNoRefill f l).1.length + 1 := by
  intro l
  induction l with
  | nil => simp [drainNoRefill]
  | cons p rest ih =>
    obtain ⟨i, r⟩ := p
    cases ho : r.outcome with
    | error e => simp [drainNoRefill, ho]
    | ok v =>
      simp [drainNoRefill, ho]
      omega

/-! Characterizations of the window-filling helper. -/

theorem iterate_requests_short (fault : Bool) (num : Nat) :
    ∀ (rem : List (Req ρ ε)) (c : Nat) (acc : List (Req ρ ε)),
      c + rem.length < num ∨ num = 0 →
      iterate_requests num fault c acc rem
        = (acc ++ rem, [], if fault then none else some true) := by
  intro rem
  induction rem with
  | nil => intro c acc _; simp [iterate_requests]
  | cons r rest ih =>
    intro c acc hlt
    rcases hlt with hlt | hlt
    · rw [List.length_cons] at hlt
      have hne : ¬ (c + 1 = num) := by omega
      have := ih (c + 1) (acc ++ [r]) (Or.inl (by omega))
      simp [iterate_requests, hne, this]
    · have hne : ¬ (c + 1 = num) := by omega
      have := ih (c + 1) (acc ++ [r]) (Or.inr hlt)
      simp [iterate_requests, hne, this]

/-! Characterizations of the steady-state interleave of the prefetch engine. -/

theorem drain_loop_peak_le (f : ρ → σ) :
    ∀ (cur onrecv : List (Nat × Req ρ ε)) (rem : List (Req ρ ε))
      (fault empt : Bool) (idx : Nat),
      (drain_loop f cur onrecv rem fault empt idx).2.2.2.2
        ≤ cur.length + onrecv.length := by
  intro cur onrecv rem fault empt idx
  induction cur, onrecv, rem, fault, empt, idx using drain_loop.induct f with
  | case1 onrecv rem fault empt idx hemp =>
    simp [drain_loop, hemp]
  | case2 onrecv rem fault empt idx hemp ih =>
    rw [length_sortByTime] at ih
    simp at ih
    simp [drain_loop, hemp]
    omega
  | case3 i r cs onrecv rem fault empt idx e ho =>
    simp [drain_loop, ho, List.length_cons]
  | case4 i r cs onrecv rem fault idx v ho ih =>
    simp [drain_loop, ho, List.length_cons]
    omega
  | case5 i r cs onrecv empt idx v ho hemp =>
    rw [Bool.not_eq_true] at hemp
    subst hemp
    simp [drain_loop, ho, List.length_cons]
  | case6 i r cs onrecv fault empt idx v ho hemp hfault ih =>
    rw [Bool.not_eq_true] at hemp hfault
    subst hemp
    subst hfault
    simp [drain_loop, ho, List.length_cons]
    omega
  | case7 i r cs onrecv fault empt idx v ho hemp q qs ih =>
    rw [Bool.not_eq_true] at hemp
    subst hemp
    rw [List.length_append] at ih
    simp at ih
    simp [drain_loop, ho, List.length_cons]
    omega

theorem iterate_requests_reach (fault : Bool) (num : Nat) :
    ∀ (rem : List (Req ρ ε)) (c : Nat) (acc : List (Req ρ ε)),
      0 < num → c < num → num ≤ c + rem.length →
      iterate_requests num fault c acc rem
        = (acc ++ rem.take (num - c), rem.drop (num - c), some false) := by
  intro rem
  induction rem with
  | nil =>
    intro c acc hpos hc hle
    exfalso
    simp at hle
    omega
  | cons r rest ih =>
    intro c acc hpos hc hle
    by_cases heq : c + 1 = num
    · have h1 : num - c = 1 := by omega
      simp [iterate_requests, heq, h1]
    · have hrec := ih (c + 1) (acc ++ [r]) hpos (by omega)
        (by rw [List.length_cons] at hle; omega)
      have h1 : num - c = (num - (c + 1)) + 1 := by omega
      simp [iterate_requests, heq, hrec, h1, List.take_succ_cons,
        List.drop_succ_cons, List.append_assoc]

theorem drain_loop_swapless (f : ρ → σ) :
    ∀ (cur : List (Nat × Req ρ ε)) (rem : List (Req ρ ε))
      (fault empt : Bool) (idx : Nat),
      allOkE cur →
      (empt = true ∨ (rem = [] ∧ fault = false)) →
      (drain_loop f cur [] rem fault empt idx).1 = okVals f cur ∧
        (drain_loop f cur [] rem fault empt idx).2.1 = .normal ∧
        (drain_loop f cur [] rem fault empt idx).2.2.1 = [] ∧
        (drain_loop f cur [] rem fault empt idx).2.2.2.1 = cur.map Prod.fst := by
  intro cur
  induction cur with
  | nil => intro rem fault empt idx _ _; simp [drain_loop, okVals]
  | cons p cs ih =>
    intro rem fault empt idx hall hcase
    obtain ⟨i, r⟩ := p
    have hok := hall (i, r) (List.mem_cons_self _ _)
    cases ho : r.outcome with
    | error e => rw [ho] at hok; simp [isOk] at hok
    | ok v =>
      have hcs : allOkE cs := fun q hq => hall q (List.mem_cons_of_mem _ hq)
      rcases hcase with he | ⟨hrem, hfault⟩
      · subst he
        have hr := ih rem fault true idx hcs (Or.inl rfl)
        simp [drain_loop, ho, hr.1, hr.2.1, hr.2.2.1, hr.2.2.2, okVals]
      · subst hrem
        subst hfault
        cases empt with
        | true =>
          have hr := ih [] false true idx hcs (Or.inl rfl)
          simp [drain_loop, ho, hr.1, hr.2.1, hr.2.2.1, hr.2.2.2, okVals]
        | false =>
          have hr := ih [] false true idx hcs (Or.inl rfl)
          simp [drain_loop, ho, hr.1, hr.2.1, hr.2.2.1, hr.2.2.2, okVals]

theorem drain_loop_empt (f : ρ → σ) :
    ∀ (cur onrecv : List (Nat × Req ρ ε)) (rem : List (Req ρ ε))
      (fault : Bool) (idx : Nat),
      allOkE cur → allOkE onrecv →
      (drain_loop f cur onrecv rem fault true idx).1
          = okVals f cur ++ okVals f (sortByTime onrecv) ∧
        (drain_loop f cur onrecv rem fault true idx).2.1 = .normal ∧
        (drain_loop f cur onrecv rem fault true idx).2.2.1 = [] ∧
        (drain_loop f cur onrecv rem fault true idx).2.2.2.1
          = cur.map Prod.fst ++ (sortByTime onrecv).map Prod.fst := by
  intro cur
  induction cur with
  | nil =>
    intro onrecv rem fault idx _ hon
    by_cases hemp : onrecv.isEmpty = true
    · rw [List.isEmpty_iff] at hemp
      subst hemp
      simp [drain_loop, okVals, sortByTime]
    · have hr := drain_loop_swapless f (sortByTime onrecv) rem fault true idx
        (allOkE_sortByTime hon) (Or.inl rfl)
      simp [drain_loop, hemp, hr.1, hr.2.1, hr.2.2.1, hr.2.2.2, okVals]
  | cons p cs ih =>
    intro onrecv rem fault idx hall hon
    obtain ⟨i, r⟩ := p
    have hok := hall (i, r) (List.mem_cons_self _ _)
    cases ho : r.outcome with
    | error e => rw [ho] at hok; simp [isOk] at hok
    | ok v =>
      have hcs : allOkE cs := fun q hq => hall q (List.mem_cons_of_mem _ hq)
      have hr := ih onrecv rem fault idx hcs hon
      simp [drain_loop, ho, hr.1, hr.2.1, hr.2.2.1, hr.2.2.2, okVals]

theorem drain_loop_steady_ok (f : ρ → σ) :
    ∀ (cur onrecv : List (Nat × Req ρ ε)) (rem : List (Req ρ ε))
      (fault empt : Bool) (idx : Nat),
      fault = false → empt = false →
      allOkE cur → allOkE onrecv → allOk rem →
      (cur = [] → onrecv ≠ []) →
      (drain_loop f cur onrecv rem fault empt idx).1.length
          = cur.length + onrecv.length + rem.length ∧
        (drain_loop f cur onrecv rem fault empt idx).2.1 = .normal ∧
        (drain_loop f cur onrecv rem fault empt idx).2.2.1
          = rem.map Req.request_id ∧
        (drain_loop f cur onrecv rem fault empt idx).2.2.2.1.length
          = cur.length + onrecv.length + rem.length := by
  intro cur onrecv rem fault empt idx
  induction cur, onrecv, rem, fault, empt, idx using drain_loop.induct f with
  | case1 onrecv rem fault empt idx hemp =>
    intro _ _ _ _ _ hne
    rw [List.isEmpty_iff] at hemp
    exact absurd hemp (hne rfl)
  | case2 onrecv rem fault empt idx hemp ih =>
    intro hf he _ hon hrem hne
    have hson : sortByTime onrecv ≠ [] := by
      rw [Ne, sortByTime_eq_nil_iff]
      exact fun h => hemp (by simp [h])
    have hr := ih hf he (allOkE_sortByTime hon) (by intro p hp; simp at hp)
      hrem (fun h => absurd h hson)
    rw [length_sortByTime] at hr
    simp at hr
    simp [drain_loop, hemp, hr.1, hr.2.1, hr.2.2.1, hr.2.2.2]
  | case3 i r cs onrecv rem fault empt idx e ho =>
    intro _ _ hall _ _ _
    have hok := hall (i, r) (List.mem_cons_self _ _)
    rw [ho] at hok
    simp [isOk] at hok
  | case4 i r cs onrecv rem fault idx v ho ih =>
    intro _ he
    exact absurd he (by simp)
  | case5 i r cs onrecv empt idx v ho hemp =>
    intro hf _
    exact absurd hf (by simp)
  | case6 i r cs onrecv fault empt idx v ho hemp hfault ih =>
    intro hf he hall hon hrem hne
    rw [Bool.not_eq_true] at hemp hfault
    subst hemp
    subst hfault
    have hcs : allOkE cs := fun q hq => hall q (List.mem_cons_of_mem _ hq)
    have hr := drain_loop_empt f cs onrecv [] false idx hcs hon
    have hl1 : (okVals f cs).length = cs.length := length_okVals f hcs
    have hl2 : (okVals f (sortByTime onrecv)).length = onrecv.length := by
      rw [length_okVals f (allOkE_sortByTime hon), length_sortByTime]
    simp [drain_loop, ho, hr.1, hr.2.1, hr.2.2.1, hr.2.2.2, hl1, hl2,
      List.length_cons, length_sortByTime]
    omega
  | case7 i r cs onrecv fault empt idx v ho hemp q qs ih =>
    intro hf he hall hon hrem hne
    rw [Bool.not_eq_true] at hemp
    subst hemp
    have hcs : allOkE cs := fun p hp => hall p (List.mem_cons_of_mem _ hp)
    have hq : isOk q.outcome = true := hrem q (List.mem_cons_self _ _)
    have hon' : allOkE (onrecv ++ [(idx, q)]) := by
      intro p hp
      rcases List.mem_append.mp hp with hp | hp
      · exact hon p hp
      · simp at hp
        rw [hp]
        exact hq
    have hqs : allOk qs := fun s hs => hrem s (List.mem_cons_of_mem _ hs)
    have hr := ih hf rfl hcs hon' hqs (by intro _; simp)
    rw [List.length_append] at hr
    simp at hr
    simp [drain_loop, ho, hr.1, hr.2.1, hr.2.2.1, hr.2.2.2, List.length_cons]
    omega

theorem drain_loop_fault (f : ρ → σ) :
    ∀ (cur onrecv : List (Nat × Req ρ ε)) (rem : List (Req ρ ε))
      (fault empt : Bool) (idx : Nat),
      fault = true → empt = false →
      allOkE cur → allOkE onrecv → allOk rem →
      (cur = [] → onrecv ≠ []) →
      (drain_loop f cur onrecv rem fault empt idx).2.1 = .producerFault := by
  intro cur onrecv rem fault empt idx
  induction cur, onrecv, rem, fault, empt, idx using drain_loop.induct f with
  | case1 onrecv rem fault empt idx hemp =>
    intro _ _ _ _ _ hne
    rw [List.isEmpty_iff] at hemp
    exact absurd hemp (hne rfl)
  | case2 onrecv rem fault empt idx hemp ih =>
    intro hf he _ hon hrem hne
    have hson : sortByTime onrecv ≠ [] := by
      rw [Ne, sortByTime_eq_nil_iff]
      exact fun h => hemp (by simp [h])
    have hr := ih hf he (allOkE_sortByTime hon) (by intro p hp; simp at hp)
      hrem (fun h => absurd h hson)
    simp [drain_loop, hemp, hr]
  | case3 i r cs onrecv rem fault empt idx e ho =>
    intro _ _ hall _ _ _
    have hok := hall (i, r) (List.mem_cons_self _ _)
    rw [ho] at hok
    simp [isOk] at hok
  | case4 i r cs onrecv rem fault idx v ho ih =>
    intro _ he
    exact absurd he (by simp)
  | case5 i r cs onrecv empt idx v ho hemp =>
    intro hf he hall hon hrem hne
    rw [Bool.not_eq_true] at hemp
    subst hemp
    simp [drain_loop, ho]
  | case6 i r cs onrecv fault empt idx v ho hemp hfault ih =>
    intro hf _
    rw [Bool.not_eq_true] at hfault
    rw [hf] at hfault
    simp at hfault
  | case7 i r cs onrecv fault empt idx v ho hemp q qs ih =>
    intro hf he hall hon hrem hne
    rw [Bool.not_eq_true] at hemp
    subst hemp
    have hcs : allOkE cs := fun p hp => hall p (List.mem_cons_of_mem _ hp)
    have hq : isOk q.outcome = true := hrem q (List.mem_cons_self _ _)
    have hon' : allOkE (onrecv ++ [(idx, q)]) := by
      intro p hp
      rcases List.mem_append.mp hp with hp | hp
      · exact hon p hp
      · simp at hp
        rw [hp]
        exact hq
    have hqs : allOk qs := fun s hs => hrem s (List.mem_cons_of_mem _ hs)
    have hr := ih hf rfl hcs hon' hqs (by intro _; simp)
    simp [drain_loop, ho, hr]

theorem drain_loop_len (f : ρ → σ) :
    ∀ (cur onrecv : List (Nat × Req ρ ε)) (rem : List (Req ρ ε))
      (fault empt : Bool) (idx : Nat),
      (drain_loop f cur onrecv rem fault empt idx).1.length
          ≤ (drain_loop f cur onrecv rem fault empt idx).2.2.2.1.length ∧
        (drain_loop f cur onrecv rem fault empt idx).2.2.2.1.length
          ≤ (drain_loop f cur onrecv rem fault empt idx).1.length + 1 := by
  intro cur onrecv rem fault empt idx
  induction cur, onrecv, rem, fault, empt, idx using drain_loop.induct f with
  | case1 onrecv rem fault empt idx hemp => simp [drain_loop, hemp]
  | case2 onrecv rem fault empt idx hemp ih => simpa [drain_loop, hemp] using ih
  | case3 i r cs onrecv rem fault empt idx e ho => simp [drain_loop, ho]
  | case4 i r cs onrecv rem fault idx v ho ih =>
    simp [drain_loop, ho] at ih ⊢
    omega
  | case5 i r cs onrecv empt idx v ho hemp =>
    rw [Bool.not_eq_true] at hemp
    subst hemp
    simp [drain_loop, ho]
  | case6 i r cs onrecv fault empt idx v ho hemp hfault ih =>
    rw [Bool.not_eq_true] at hemp hfault
    subst hemp
    subst hfault
    simp [drain_loop, ho] at ih ⊢
    omega
  | case7 i r cs onrecv fault empt idx v ho hemp q qs ih =>
    rw [Bool.not_eq_true] at hemp
    subst hemp
    simp [drain_loop, ho] at ih ⊢
    omega

theorem drain_loop_consumed_nodup (f : ρ → σ) :
    ∀ (cur onrecv : List (Nat × Req ρ ε)) (rem : List (Req ρ ε))
      (fault empt : Bool) (idx : Nat),
      ((cur ++ onrecv).map Prod.fst).Nodup →
      (∀ p ∈ cur ++ onrecv, p.1 < idx) →
      (drain_loop f cur onrecv rem fault empt idx).2.2.2.1.Nodup ∧
        ∀ j ∈ (drain_loop f cur onrecv rem fault empt idx).2.2.2.1,
          j ∈ (cur ++ onrecv).map Prod.fst ∨ idx ≤ j := by
  intro cur onrecv rem fault empt idx
  induction cur, onrecv, rem, fault, empt, idx using drain_loop.induct f with
  | case1 onrecv rem fault empt idx hemp =>
    intro _ _
    simp [drain_loop, hemp]
  | case2 onrecv rem fault empt idx hemp ih =>
    intro hnd hbnd
    have hperm := sortByTime_perm (ρ := ρ) (ε := ε) onrecv
    have hnd' : ((sortByTime onrecv ++ []).map Prod.fst).Nodup := by
      rw [List.append_nil]
      exact (hperm.map Prod.fst).nodup_iff.mpr (by simpa using hnd)
    have hbnd' : ∀ p ∈ sortByTime onrecv ++ [], p.1 < idx := by
      intro p hp
      rw [List.append_nil] at hp
      exact hbnd p (by simpa using hperm.mem_iff.mp hp)
    have hr := ih hnd' hbnd'
    constructor
    · simpa [drain_loop, hemp] using hr.1
    · intro j hj
      have hj' : j ∈ (drain_loop f (sortByTime onrecv) [] rem fault empt
          idx).2.2.2.1 := by
        simpa [drain_loop, hemp] using hj
      rcases hr.2 j hj' with hl | hrge
      · left
        rw [List.append_nil] at hl
        rcases List.mem_map.mp hl with ⟨p, hp, hpj⟩
        exact List.mem_map.mpr ⟨p, by simpa using hperm.mem_iff.mp hp, hpj⟩
      · right
        exact hrge
  | case3 i r cs onrecv rem fault empt idx e ho =>
    intro _ _
    refine ⟨by simp [drain_loop, ho], ?_⟩
    intro j hj
    simp [drain_loop, ho] at hj
    subst hj
    left
    simp
  | case4 i r cs onrecv rem fault idx v ho ih =>
    intro hnd hbnd
    simp only [List.cons_append, List.map_cons, List.nodup_cons] at hnd
    obtain ⟨hhead, hnd'⟩ := hnd
    have hi : i < idx := by
      simpa using hbnd (i, r) (by rw [List.cons_append]; exact List.mem_cons_self _ _)
    have hbnd' : ∀ p ∈ cs ++ onrecv, p.1 < idx := fun p hp =>
      hbnd p (by rw [List.cons_append]; exact List.mem_cons_of_mem _ hp)
    have hr := ih hnd' hbnd'
    constructor
    · have hnotin : i ∉ (drain_loop f cs onrecv rem fault true idx).2.2.2.1 := by
        intro hmem
        rcases hr.2 i hmem with hl | hg
        · exact hhead hl
        · omega
      simp [drain_loop, ho, List.nodup_cons]
      exact ⟨hnotin, hr.1⟩
    · intro j hj
      simp only [drain_loop, ho] at hj
      rcases List.mem_cons.mp hj with hj | hj
      · subst hj
        left
        simp [List.cons_append]
      · rcases hr.2 j hj with hl | hg
        · left
          rw [List.cons_append, List.map_cons]
          exact List.mem_cons_of_mem _ hl
        · right
          exact hg
  | case5 i r cs onrecv empt idx v ho hemp =>
    intro _ _
    rw [Bool.not_eq_true] at hemp
    subst hemp
    refine ⟨by simp [drain_loop, ho], ?_⟩
    intro j hj
    simp [drain_loop, ho] at hj
    subst hj
    left
    simp [List.cons_append]
  | case6 i r cs onrecv fault empt idx v ho hemp hfault ih =>
    intro hnd hbnd
    rw [Bool.not_eq_true] at hemp hfault
    subst hemp
    subst hfault
    simp only [List.cons_append, List.map_cons, List.nodup_cons] at hnd
    obtain ⟨hhead, hnd'⟩ := hnd
    have hi : i < idx := by
      simpa using hbnd (i, r) (by rw [List.cons_append]; exact List.mem_cons_self _ _)
    have hbnd' : ∀ p ∈ cs ++ onrecv, p.1 < idx := fun p hp =>
      hbnd p (by rw [List.cons_append]; exact List.mem_cons_of_mem _ hp)
    have hr := ih hnd' hbnd'
    constructor
    · have hnotin : i ∉ (drain_loop f cs onrecv [] false true idx).2.2.2.1 := by
        intro hmem
        rcases hr.2 i hmem with hl | hg
        · exact hhead hl
        · omega
      simp [drain_loop, ho, List.nodup_cons]
      exact ⟨hnotin, hr.1⟩
    · intro j hj
      simp only [drain_loop, ho] at hj
      rcases List.mem_cons.mp hj with hj | hj
      · subst hj
        left
        simp [List.cons_append]
      · rcases hr.2 j hj with hl | hg
        · left
          rw [List.cons_append, List.map_cons]
          exact List.mem_cons_of_mem _ hl
        · right
          exact hg
  | case7 i r cs onrecv fault empt idx v ho hemp q qs ih =>
    intro hnd hbnd
    rw [Bool.not_eq_true] at hemp
    subst hemp
    simp only [List.cons_append, List.map_cons, List.nodup_cons] at hnd
    obtain ⟨hhead, hnd0⟩ := hnd
    have hi : i < idx := by
      simpa using hbnd (i, r) (by rw [List.cons_append]; exact List.mem_cons_self _ _)
    have hbnd0 : ∀ p ∈ cs ++ onrecv, p.1 < idx := fun p hp =>
      hbnd p (by rw [List.cons_append]; exact List.mem_cons_of_mem _ hp)
    have hfresh : idx ∉ (cs ++ onrecv).map Prod.fst := by
      intro hmem
      rcases List.mem_map.mp hmem with ⟨p, hp, hpj⟩
      have := hbnd0 p hp
      omega
    have hnd' : ((cs ++ (onrecv ++ [(idx, q)])).map Prod.fst).Nodup := by
      rw [← List.append_assoc, List.map_append, List.nodup_append]
      refine ⟨hnd0, by simp, ?_⟩
      intro a ha hb
      simp at hb
      subst hb
      exact hfresh ha
    have hbnd' : ∀ p ∈ cs ++ (onrecv ++ [(idx, q)]), p.1 < idx + 1 := by
      intro p hp
      rw [← List.append_assoc] at hp
      rcases List.mem_append.mp hp with hp | hp
      · have := hbnd0 p hp
        omega
      · simp at hp
        subst hp
        simp
    have hr := ih hnd' hbnd'
    constructor
    · have hnotin :
          i ∉ (drain_loop f cs (onrecv ++ [(idx, q)]) qs fault false
            (idx + 1)).2.2.2.1 := by
        intro hmem
        rcases hr.2 i hmem with hl | hg
        · rw [← List.append_assoc, List.map_append] at hl
          rcases List.mem_append.mp hl with hl | hl
          · exact hhead hl
          · simp at hl
            omega
        · omega
      simp [drain_loop, ho, List.nodup_cons]
      exact ⟨hnotin, hr.1⟩
    · intro j hj
      simp only [drain_loop, ho] at hj
      rcases List.mem_cons.mp hj with hj | hj
      · subst hj
        left
        simp [List.cons_append]
      · rcases hr.2 j hj with hl | hg
        · rw [← List.append_assoc, List.map_append] at hl
          rcases List.mem_append.mp hl with hl | hl
          · left
            rw [List.cons_append, List.map_cons]
            exact List.mem_cons_of_mem _ hl
          · right
            simp at hl
            omega
        · right
          omega

/-! Branch unfoldings of the prefetch engine. -/

theorem prefetch_run_short (f : ρ → σ) {reqs : List (Req ρ ε)} (pf : Nat)
    (h1 : reqs.length < pf ∨ pf = 0) (h2 : reqs ≠ []) :
    stream_requests_with_prefetch f ⟨reqs, false⟩ pf
      = { yields := (drainNoRefill f (sortByTime reqs.enum)).1,
          ending := (drainNoRefill f (sortByTime reqs.enum)).2.1,
          dispatched := reqs.map Req.request_id,
          consumed := (drainNoRefill f (sortByTime reqs.enum)).2.2,
          eoi_calls := 0, error_logs := 0,
          peak_inflight := reqs.length } := by
  have hit := iterate_requests_short (ρ := ρ) (ε := ε) false pf reqs 0 []
    (by omega)
  simp only [List.nil_append, Bool.false_eq_true, if_false] at hit
  simp only [stream_requests_with_prefetch]
  rw [hit]
  simp [List.isEmpty_iff, h2]

theorem prefetch_run_fault_fill (f : ρ → σ) {reqs : List (Req ρ ε)} (pf : Nat)
    (h1 : reqs.length < pf ∨ pf = 0) :
    stream_requests_with_prefetch f ⟨reqs, true⟩ pf
      = { yields := [], ending := .producerFault,
          dispatched := reqs.map Req.request_id, consumed := [],
          eoi_calls := 0, error_logs := 0,
          peak_inflight := reqs.length } := by
  have hit := iterate_requests_short (ρ := ρ) (ε := ε) true pf reqs 0 []
    (by omega)
  simp only [List.nil_append, if_true] at hit
  simp only [stream_requests_with_prefetch]
  rw [hit]

theorem prefetch_run_steady (f : ρ → σ) {reqs : List (Req ρ ε)} (pf : Nat)
    (fault : Bool) (h1 : 0 < pf) (h2 : pf ≤ reqs.length) :
    stream_requests_with_prefetch f ⟨reqs, fault⟩ pf
      = { yields := (drain_loop f (sortByTime (reqs.take pf).enum) []
            (reqs.drop pf) fault false pf).1,
          ending := (drain_loop f (sortByTime (reqs.take pf).enum) []
            (reqs.drop pf) fault false pf).2.1,
          dispatched := (reqs.take pf).map Req.request_id
            ++ (drain_loop f (sortByTime (reqs.take pf).enum) []
              (reqs.drop pf) fault false pf).2.2.1,
          consumed := (drain_loop f (sortByTime (reqs.take pf).enum) []
            (reqs.drop pf) fault false pf).2.2.2.1,
          eoi_calls := 0, error_logs := 0,
          peak_inflight := max pf (drain_loop f (sortByTime (reqs.take pf).enum)
            [] (reqs.drop pf) fault false pf).2.2.2.2 } := by
  have hit := iterate_requests_reach (ρ := ρ) (ε := ε) fault pf reqs 0 [] h1 h1
    (by omega)
  simp only [List.nil_append, Nat.sub_zero] at hit
  have hlen : (reqs.take pf).length = pf := by
    rw [List.length_take]
    omega
  have hne : (reqs.take pf).isEmpty = false := by
    rw [List.isEmpty_eq_false_iff_exists_mem]
    have : 0 < (reqs.take pf).length := by omega
    exact List.exists_mem_of_length_pos this
  simp only [stream_requests_with_prefetch]
  rw [hit]
  simp [hne, hlen]

/-! Composed characterizations of the unbounded engine. -/

theorem stream_requests_all_ok (f : ρ → σ) (inp : Input ρ ε)
    (hfault : inp.fault = false) (hdist : distinctIds inp.reqs)
    (hok : allOk inp.reqs) :
    (stream_requests f inp).yields = okVals f (completionQueue inp.reqs) ∧
      (stream_requests f inp).ending = .normal ∧
      (stream_requests f inp).consumed
        = (completionQueue inp.reqs).map Prod.fst := by
  obtain ⟨reqs, fault⟩ := inp
  simp only at hfault hdist hok
  subst hfault
  have hpend : pendingOf reqs = reqs.map Req.request_id :=
    pendingOf_eq_of_distinct hdist
  have hperm : (pendingOf reqs).Perm
      ((completionQueue reqs).map fun p => p.2.request_id) := by
    rw [hpend]
    exact (map_rid_completionQueue_perm reqs).symm
  have hnd : ((completionQueue reqs).map fun p => p.2.request_id).Nodup :=
    (map_rid_completionQueue_perm reqs).nodup_iff.mpr hdist
  have hc := consume_all_ok f (completionQueue reqs) (pendingOf reqs)
    (allOkE_completionQueue hok) hperm hnd
  simp [stream_requests, hc]

theorem stream_requests_hang (f : ρ → σ) (inp : Input ρ ε)
    (hfault : inp.fault = true) (hdist : distinctIds inp.reqs)
    (hok : allOk inp.reqs) :
    (stream_requests f inp).yields = okVals f (completionQueue inp.reqs) ∧
      (stream_requests f inp).ending = .hang ∧
      (stream_requests f inp).consumed
        = (completionQueue inp.reqs).map Prod.fst := by
  obtain ⟨reqs, fault⟩ := inp
  simp only at hfault hdist hok
  subst hfault
  have hpend : pendingOf reqs = reqs.map Req.request_id :=
    pendingOf_eq_of_distinct hdist
  have hperm : (pendingOf reqs).Perm
      ((completionQueue reqs).map fun p => p.2.request_id) := by
    rw [hpend]
    exact (map_rid_completionQueue_perm reqs).symm
  have hnd : ((completionQueue reqs).map fun p => p.2.request_id).Nodup :=
    (map_rid_completionQueue_perm reqs).nodup_iff.mpr hdist
  have hc := consume_no_eoi f (completionQueue reqs) (pendingOf reqs)
    (allOkE_completionQueue hok) hperm hnd
  simp [stream_requests, hc]

theorem stream_requests_err (f : ρ → σ) (inp : Input ρ ε)
    (hfault : inp.fault = false) (hdist : distinctIds inp.reqs)
    (q1 : List (Nat × Req ρ ε)) (i : Nat) (r : Req ρ ε)
    (q2 : List (Nat × Req ρ ε)) (e : ε)
    (hq : completionQueue inp.reqs = q1 ++ (i, r) :: q2)
    (hok1 : allOkE q1) (herr : r.outcome = .error e) :
    (stream_requests f inp).yields = okVals f q1 ∧
      (stream_requests f inp).ending = .failed e ∧
      (stream_requests f inp).consumed = q1.map Prod.fst ++ [i] := by
  obtain ⟨reqs, fault⟩ := inp
  simp only at hfault hdist hq
  subst hfault
  have hpend : pendingOf reqs = reqs.map Req.request_id :=
    pendingOf_eq_of_distinct hdist
  have hperm : (pendingOf reqs).Perm
      ((q1 ++ (i, r) :: q2).map fun p => p.2.request_id) := by
    rw [hpend, ← hq]
    exact (map_rid_completionQueue_perm reqs).symm
  have hnd : ((q1 ++ (i, r) :: q2).map fun p => p.2.request_id).Nodup := by
    rw [← hq]
    exact (map_rid_completionQueue_perm reqs).nodup_iff.mpr hdist
  have hc := consume_err f q1 i r q2 (pendingOf reqs) e hok1 herr hperm hnd
  rw [← hq] at hc
  simp [stream_requests, hc]

/-! Further helper lemmas about the prefetch engine. -/

theorem allOk_take {reqs : List (Req ρ ε)} (hok : allOk reqs) (n : Nat) :
    allOk (reqs.take n) := fun r hr => hok r (List.mem_of_mem_take hr)

theorem allOk_drop {reqs : List (Req ρ ε)} (hok : allOk reqs) (n : Nat) :
    allOk (reqs.drop n) := fun r hr => hok r (List.mem_of_mem_drop hr)

theorem sort_enum_take_ne_nil {reqs : List (Req ρ ε)} {pf : Nat}
    (hpos : 0 < pf) (hle : pf ≤ reqs.length) :
    sortByTime (reqs.take pf).enum ≠ [] := by
  intro hnil
  have := congrArg List.length hnil
  rw [length_sortByTime, List.enum_length, List.length_take,
    List.length_nil] at this
  omega

theorem fst_lt_of_mem_sort_enum {l : List (Req ρ ε)} {p : Nat × Req ρ ε}
    (hp : p ∈ sortByTime l.enum) : p.1 < l.length := by
  have h1 : p.1 ∈ (sortByTime l.enum).map Prod.fst := List.mem_map_of_mem _ hp
  have h2 := (map_fst_completionQueue_perm l).mem_iff.mp h1
  exact List.mem_range.mp h2

theorem prefetch_all_ok_le (f : ρ → σ) {reqs : List (Req ρ ε)} (pf : Nat)
    (hok : allOk reqs) (hpos : 0 < reqs.length) (hle : reqs.length ≤ pf) :
    (stream_requests_with_prefetch f ⟨reqs, false⟩ pf).yields
        = okVals f (completionQueue reqs) ∧
      (stream_requests_with_prefetch f ⟨reqs, false⟩ pf).dispatched
        = reqs.map Req.request_id ∧
      (stream_requests_with_prefetch f ⟨reqs, false⟩ pf).ending = .normal := by
  by_cases hlt : reqs.length < pf
  · have hne : reqs ≠ [] := by
      intro h
      subst h
      simp at hpos
    rw [prefetch_run_short f pf (Or.inl hlt) hne]
    have hd := drainNoRefill_all_ok f (completionQueue reqs)
      (allOkE_completionQueue hok)
    simp [show sortByTime reqs.enum = completionQueue reqs from rfl, hd]
  · have heq : pf = reqs.length := by omega
    subst heq
    rw [prefetch_run_steady f reqs.length false (by omega) (le_refl _)]
    rw [List.take_length, List.drop_length]
    have hsw := drain_loop_swapless f (sortByTime reqs.enum) [] false false
      reqs.length (allOkE_completionQueue hok) (Or.inr ⟨rfl, rfl⟩)
    simp [hsw.1, hsw.2.1, hsw.2.2.1]
    rfl

theorem prefetch_all_ok_gt (f : ρ → σ) {reqs : List (Req ρ ε)} (pf : Nat)
    (hok : allOk reqs) (hpos : 0 < pf) (hgt : pf < reqs.length) :
    (stream_requests_with_prefetch f ⟨reqs, false⟩ pf).yields.length
        = reqs.length ∧
      (stream_requests_with_prefetch f ⟨reqs, false⟩ pf).dispatched
        = reqs.map Req.request_id ∧
      (stream_requests_with_prefetch f ⟨reqs, false⟩ pf).ending = .normal := by
  rw [prefetch_run_steady f pf false hpos (by omega)]
  have hcur : allOkE (sortByTime (reqs.take pf).enum) :=
    allOkE_sortByTime (allOkE_enum (allOk_take hok pf))
  have hrem := allOk_drop hok pf
  have hne := sort_enum_take_ne_nil hpos (by omega : pf ≤ reqs.length)
  have hst := drain_loop_steady_ok f (sortByTime (reqs.take pf).enum) []
    (reqs.drop pf) false false pf rfl rfl hcur (by intro p hp; simp at hp) hrem
    (fun h => absurd h hne)
  refine ⟨?_, ?_, hst.2.1⟩
  · have hl := hst.1
    rw [length_sortByTime, List.enum_length, List.length_take,
      List.length_drop] at hl
    simp only [List.length_nil] at hl
    simp [hl]
    omega
  · have hd := hst.2.2.1
    simp [hd, ← List.map_append, List.take_append_drop]

theorem prefetch_peak_le (f : ρ → σ) (inp : Input ρ ε) (pf : Nat)
    (hpf : 1 ≤ pf) :
    (stream_requests_with_prefetch f inp pf).peak_inflight ≤ pf := by
  obtain ⟨reqs, fault⟩ := inp
  by_cases hcase : reqs.length < pf ∨ pf = 0
  · have hlt : reqs.length < pf := by omega
    cases fault with
    | true =>
      rw [prefetch_run_fault_fill f pf hcase]
      simp
      omega
    | false =>
      by_cases hne : reqs = []
      · subst hne
        simp [stream_requests_with_prefetch, iterate_requests]
      · rw [prefetch_run_short f pf hcase hne]
        simp
        omega
  · push_neg at hcase
    have hpos : 0 < pf := by omega
    have hle : pf ≤ reqs.length := by omega
    rw [prefetch_run_steady f pf fault hpos hle]
    have hpk := drain_loop_peak_le f (sortByTime (reqs.take pf).enum) []
      (reqs.drop pf) fault false pf
    rw [length_sortByTime, List.enum_length, List.length_take,
      List.length_nil] at hpk
    simp
    omega

theorem prefetch_consumed_nodup (f : ρ → σ) (inp : Input ρ ε) (pf : Nat) :
    (stream_requests_with_prefetch f inp pf).consumed.Nodup := by
  obtain ⟨reqs, fault⟩ := inp
  by_cases hcase : reqs.length < pf ∨ pf = 0
  · cases fault with
    | true =>
      rw [prefetch_run_fault_fill f pf hcase]
      simp
    | false =>
      by_cases hne : reqs = []
      · subst hne
        simp [stream_requests_with_prefetch, iterate_requests]
      · rw [prefetch_run_short f pf hcase hne]
        obtain ⟨n, hn⟩ := drainNoRefill_consumed_take f (sortByTime reqs.enum)
        simp only [hn]
        exact (List.take_sublist _ _).nodup (nodup_map_fst_completionQueue reqs)
  · push_neg at hcase
    have hpos : 0 < pf := by omega
    have hle : pf ≤ reqs.length := by omega
    rw [prefetch_run_steady f pf fault hpos hle]
    have hnd := drain_loop_consumed_nodup f (sortByTime (reqs.take pf).enum) []
      (reqs.drop pf) fault false pf
      (by
        rw [List.append_nil]
        exact nodup_map_fst_completionQueue (reqs.take pf))
      (by
        intro p hp
        rw [List.append_nil] at hp
        have := fst_lt_of_mem_sort_enum hp
        rw [List.length_take] at this
        omega)
    simpa using hnd.1

theorem prefetch_len_rel (f : ρ → σ) (inp : Input ρ ε) (pf : Nat) :
    (stream_requests_with_prefetch f inp pf).yields.length
        ≤ (stream_requests_with_prefetch f inp pf).consumed.length ∧
      (stream_requests_with_prefetch f inp pf).consumed.length
        ≤ (stream_requests_with_prefetch f inp pf).yields.length + 1 := by
  obtain ⟨reqs, fault⟩ := inp
  by_cases hcase : reqs.length < pf ∨ pf = 0
  · cases fault with
    | true =>
      rw [prefetch_run_fault_fill f pf hcase]
      simp
    | false =>
      by_cases hne : reqs = []
      · subst hne
        simp [stream_requests_with_prefetch, iterate_requests]
      · rw [prefetch_run_short f pf hcase hne]
        simpa using drainNoRefill_len f (sortByTime reqs.enum)
  · push_neg at hcase
    have hpos : 0 < pf := by omega
    have hle : pf ≤ reqs.length := by omega
    rw [prefetch_run_steady f pf fault hpos hle]
    simpa using drain_loop_len f (sortByTime (reqs.take pf).enum) []
      (reqs.drop pf) fault false pf

theorem stream_requests_consumed_nodup (f : ρ → σ) (inp : Input ρ ε) :
    (stream_requests f inp).consumed.Nodup := by
  obtain ⟨n, hn⟩ := consume_consumed_take f (!inp.fault)
    (completionQueue inp.reqs) (pendingOf inp.reqs)
  have hsh : (stream_requests f inp).consumed
      = ((completionQueue inp.reqs).map Prod.fst).take n := hn
  rw [hsh]
  exact (List.take_sublist _ _).nodup (nodup_map_fst_completionQueue inp.reqs)

theorem stream_requests_len_rel (f : ρ → σ) (inp : Input ρ ε) :
    (stream_requests f inp).yields.length
        ≤ (stream_requests f inp).consumed.length ∧
      (stream_requests f inp).consumed.length
        ≤ (stream_requests f inp).yields.length + 1 :=
  consume_len f (!inp.fault) (completionQueue inp.reqs) (pendingOf inp.reqs)

/-! Claim theorems. -/

/-- C6: on an empty input the prefetch engine (any window size) yields zero
results, records exactly one error-level diagnostic, and returns normally
rather than raising. -/
theorem c6_empty_input_prefetch (f : ρ → σ) (pf : Nat) :
    (stream_requests_with_prefetch f (⟨[], false⟩ : Input ρ ε) pf).yields = [] ∧
      (stream_requests_with_prefetch f (⟨[], false⟩ : Input ρ ε) pf).error_logs
        = 1 ∧
      (stream_requests_with_prefetch f (⟨[], false⟩ : Input ρ ε) pf).ending
        = .normal := by
  simp [stream_requests_with_prefetch, iterate_requests]

/-- C7 counterexample: on a nonempty, fault-free input the prefetch engine
invokes handle_end_of_iter zero times, not once as the claim states for both
engines. -/
theorem c7_counterexample_prefetch_no_call :
    exScenarioA.fault = false ∧ exScenarioA.reqs ≠ [] ∧
      (stream_requests_with_prefetch (fun v => v) exScenarioA 2).eoi_calls
        = 0 := by
  refine ⟨rfl, by simp [exScenarioA], rfl⟩

/-- C7 amended: the unbounded engine invokes handle_end_of_iter exactly once
whenever the source is exhausted without fault (including the empty input) and
never when the source faults, while the prefetch engine never invokes it on
any input. -/
theorem c7_end_of_iter_calls (f : ρ → σ) (inp : Input ρ ε) (pf : Nat) :
    (stream_requests f inp).eoi_calls = (if inp.fault then 0 else 1) ∧
      (stream_requests_with_prefetch f inp pf).eoi_calls = 0 := by
  constructor
  · rfl
  · simp only [stream_requests_with_prefetch]
    rcases h : iterate_requests pf inp.fault 0 [] inp.reqs with ⟨acc, rest, ob⟩
    cases ob with
    | none => rfl
    | some empt =>
      by_cases hacc : acc.isEmpty = true <;> cases empt <;> simp [hacc]

/-- C10: with duplicate request identifiers the unbounded engine fails to
yield one result per request.  On two requests both named 7, the PendingSet
holds a single entry, so after the first yield the all-handled condition fires
and only one of the two completed results is ever yielded.  With a third
distinct request keeping the PendingSet nonempty, the loop instead reaches the
second completion of identifier 7 and its removal raises KeyError. -/
theorem c10_duplicate_ids_lose_results :
    exDupTwo.reqs.length = 2 ∧
      ¬ distinctIds exDupTwo.reqs ∧
      (stream_requests (fun v => v) exDupTwo).yields.length = 1 ∧
      (stream_requests (fun v => v) exDupTwo).ending = .normal ∧
      (stream_requests (fun v => v) exDupThree).yields.length = 2 ∧
      (stream_requests (fun v => v) exDupThree).ending = .keyError := by
  refine ⟨rfl, ?_, rfl, rfl, rfl, rfl⟩
  show ¬ (exDupTwo.reqs.map Req.request_id).Nodup
  decide

/-- C1 counterexample: two requests with distinct identifiers and no producer
fault, where the first-completing operation fails: the exception propagates
out of the generator before anything is yielded and the stream terminates, so
the engine yields 0 of the 2 results. -/
theorem c1_counterexample_failed_outcome :
    distinctIds exErrFirst.reqs ∧ exErrFirst.fault = false ∧
      exErrFirst.reqs.length = 2 ∧
      (stream_requests (fun v => v) exErrFirst).yields.length = 0 ∧
      (stream_requests (fun v => v) exErrFirst).ending = .failed 99 := by
  refine ⟨?_, rfl, rfl, rfl, rfl⟩
  show (exErrFirst.reqs.map Req.request_id).Nodup
  decide

/-- C1 amended: with pairwise distinct identifiers, no producer fault, and
every dispatched operation completing successfully, the unbounded engine
yields exactly L results and terminates normally, reading each of the L
dispatched operations exactly once (the consumed dispatch positions are a
permutation of the range 0..L-1); this includes L = 0.  When an operation
fails instead, the stream ends at that failure and later results are lost
(see the counterexample). -/
theorem c1_unbounded_exact_results (f : ρ → σ) (inp : Input ρ ε)
    (hfault : inp.fault = false) (hdist : distinctIds inp.reqs)
    (hok : allOk inp.reqs) :
    (stream_requests f inp).yields.length = inp.reqs.length ∧
      (stream_requests f inp).ending = .normal ∧
      (stream_requests f inp).consumed.Perm (List.range inp.reqs.length) := by
  have h := stream_requests_all_ok f inp hfault hdist hok
  refine ⟨?_, h.2.1, ?_⟩
  · rw [h.1, length_okVals f (allOkE_completionQueue hok),
      length_completionQueue]
  · rw [h.2.2]
    exact map_fst_completionQueue_perm inp.reqs

/-- C1 witness: the amended statement holds on the concrete three-request
scenario input. -/
theorem c1_witness :
    (exScenarioA.fault = false ∧ distinctIds exScenarioA.reqs ∧
        allOk exScenarioA.reqs) ∧
      (stream_requests (fun v => v) exScenarioA).yields.length
          = exScenarioA.reqs.length ∧
        (stream_requests (fun v => v) exScenarioA).ending = .normal ∧
        (stream_requests (fun v => v) exScenarioA).consumed.Perm
          (List.range exScenarioA.reqs.length) :=
  ⟨⟨rfl,
    by show (exScenarioA.reqs.map Req.request_id).Nodup; decide,
    by show ∀ r ∈ exScenarioA.reqs, isOk r.outcome = true; decide⟩,
    c1_unbounded_exact_results (fun v => v) exScenarioA rfl
      (by show (exScenarioA.reqs.map Req.request_id).Nodup; decide)
      (by show ∀ r ∈ exScenarioA.reqs, isOk r.outcome = true; decide)⟩

/-- C3 counterexample: three distinct requests; the operation completing
second (request 0) fails while the operation completing third (request 2)
succeeds.  The stream yields the first-completing result, surfaces the
failure at position 1, and terminates: request 2's successful result is never
yielded, contradicting that a failure does not affect other requests'
results. -/
theorem c3_counterexample_later_results_dropped :
    distinctIds exErrMid.reqs ∧ exErrMid.fault = false ∧
      exErrMid.reqs.length = 3 ∧
      (stream_requests (fun v => v) exErrMid).yields = [5] ∧
      (stream_requests (fun v => v) exErrMid).ending = .failed 9 := by
  refine ⟨?_, rfl, rfl, rfl, rfl⟩
  show (exErrMid.reqs.map Req.request_id).Nodup
  decide

/-- C3 amended: when one operation fails, the failure reaches the caller
exactly at the position where that request's result would have been yielded in
completion order: every earlier-completing result is yielded unchanged and the
stream then terminates, so later-completing results are not yielded.  The same
holds for the prefetch engine on its short-input path (L below the window
size). -/
theorem c3_failure_at_completion_position (f : ρ → σ) (inp : Input ρ ε)
    (hfault : inp.fault = false) (hdist : distinctIds inp.reqs)
    (q1 : List (Nat × Req ρ ε)) (i : Nat) (r : Req ρ ε)
    (q2 : List (Nat × Req ρ ε)) (e : ε)
    (hq : completionQueue inp.reqs = q1 ++ (i, r) :: q2)
    (hok1 : allOkE q1) (herr : r.outcome = .error e) :
    (stream_requests f inp).yields = okVals f q1 ∧
      (stream_requests f inp).yields.length = q1.length ∧
      (stream_requests f inp).ending = .failed e ∧
      ∀ pf : Nat, inp.reqs.length < pf →
        (stream_requests_with_prefetch f inp pf).yields = okVals f q1 ∧
          (stream_requests_with_prefetch f inp pf).ending = .failed e := by
  have h := stream_requests_err f inp hfault hdist q1 i r q2 e hq hok1 herr
  refine ⟨h.1, ?_, h.2.1, ?_⟩
  · rw [h.1]
    exact length_okVals f hok1
  · intro pf hlt
    obtain ⟨reqs, fault⟩ := inp
    simp only at hfault hq hlt
    subst hfault
    have hne : reqs ≠ [] := by
      intro hnil
      subst hnil
      simp [completionQueue, sortByTime] at hq
    have hrun := prefetch_run_short f pf (Or.inl hlt) hne
    have hdrain := drainNoRefill_err f q1 i r q2 e hok1 herr
    rw [show sortByTime reqs.enum = completionQueue reqs from rfl, hq] at hrun
    rw [hrun]
    simp [hdrain]

/-- C3 witness: the amended statement holds on the concrete input whose
second-completing operation fails, with the completion queue split around the
failing entry. -/
theorem c3_witness :
    (exErrMid.fault = false ∧ distinctIds exErrMid.reqs ∧
        completionQueue exErrMid.reqs
          = [(1, ⟨1, 10, .ok 5⟩)]
              ++ (0, ⟨0, 20, .error 9⟩) :: [(2, ⟨2, 30, .ok 7⟩)] ∧
        allOkE [((1 : Nat), (⟨1, 10, .ok 5⟩ : Req Nat Nat))] ∧
        (⟨0, 20, .error 9⟩ : Req Nat Nat).outcome = .error 9) ∧
      (stream_requests (fun v => v) exErrMid).yields
          = okVals (fun v => v)
              ([(1, ⟨1, 10, .ok 5⟩)] : List (Nat × Req Nat Nat)) ∧
        (stream_requests (fun v => v) exErrMid).yields.length = 1 ∧
        (stream_requests (fun v => v) exErrMid).ending = .failed 9 ∧
        ∀ pf : Nat, exErrMid.reqs.length < pf →
          (stream_requests_with_prefetch (fun v => v) exErrMid pf).yields
              = okVals (fun v => v)
                  ([(1, ⟨1, 10, .ok 5⟩)] : List (Nat × Req Nat Nat)) ∧
            (stream_requests_with_prefetch (fun v => v) exErrMid pf).ending
              = .failed 9 :=
  ⟨⟨rfl,
    by show (exErrMid.reqs.map Req.request_id).Nodup; decide,
    rfl,
    by show ∀ p ∈ [((1 : Nat), (⟨1, 10, .ok 5⟩ : Req Nat Nat))],
      isOk p.2.outcome = true; decide,
    rfl⟩,
    c3_failure_at_completion_position (fun v => v) exErrMid rfl
      (by show (exErrMid.reqs.map Req.request_id).Nodup; decide)
      ([(1, ⟨1, 10, .ok 5⟩)] : List (Nat × Req Nat Nat)) 0 ⟨0, 20, .error 9⟩
      [(2, ⟨2, 30, .ok 7⟩)] 9 rfl
      (by show ∀ p ∈ [((1 : Nat), (⟨1, 10, .ok 5⟩ : Req Nat Nat))],
        isOk p.2.outcome = true; decide)
      rfl⟩

/-- C4 counterexample: a producer fault after one successful request makes the
unbounded engine yield that request's result and then wait forever on the
completion queue: the caller never observes the exception, contradicting that
both engines propagate the fault. -/
theorem c4_counterexample_unbounded_hangs :
    exFaultOne.fault = true ∧
      (stream_requests (fun v => v) exFaultOne).yields = [1] ∧
      (stream_requests (fun v => v) exFaultOne).ending = .hang :=
  ⟨rfl, rfl, rfl⟩

/-- C4 amended: a producer fault propagates out of the prefetch engine as a
fatal error terminating the stream, but the unbounded engine never surfaces
it: the exception stays inside the producer task, which nothing awaits, so
end_of_iter is never set and, after yielding the results of the requests
dispatched before the fault, the consumer waits forever. -/
theorem c4_producer_fault_behaviour (f : ρ → σ) (inp : Input ρ ε)
    (hfault : inp.fault = true) (hdist : distinctIds inp.reqs)
    (hok : allOk inp.reqs) :
    (stream_requests f inp).ending = .hang ∧
      (stream_requests f inp).yields.length = inp.reqs.length ∧
      (stream_requests f inp).eoi_calls = 0 ∧
      ∀ pf : Nat,
        (stream_requests_with_prefetch f inp pf).ending = .producerFault := by
  have h := stream_requests_hang f inp hfault hdist hok
  refine ⟨h.2.1, ?_, ?_, ?_⟩
  · rw [h.1, length_okVals f (allOkE_completionQueue hok),
      length_completionQueue]
  · simp [stream_requests, hfault]
  · intro pf
    obtain ⟨reqs, fault⟩ := inp
    simp only at hfault hok
    subst hfault
    by_cases hcase : reqs.length < pf ∨ pf = 0
    · rw [prefetch_run_fault_fill f pf hcase]
    · push_neg at hcase
      have hpos : 0 < pf := by omega
      have hle : pf ≤ reqs.length := by omega
      rw [prefetch_run_steady f pf true hpos hle]
      have hcur : allOkE (sortByTime (reqs.take pf).enum) :=
        allOkE_sortByTime (allOkE_enum fun s hs => hok s (List.mem_of_mem_take hs))
      have hrem : allOk (reqs.drop pf) := fun s hs =>
        hok s (List.mem_of_mem_drop hs)
      have hne : sortByTime (reqs.take pf).enum ≠ [] := by
        intro hnil
        have := congrArg List.length hnil
        rw [length_sortByTime, List.enum_length, List.length_take] at this
        rw [List.length_nil] at this
        omega
      exact drain_loop_fault f (sortByTime (reqs.take pf).enum) [] (reqs.drop pf)
        true false pf rfl rfl hcur (by intro p hp; simp at hp) hrem
        (fun h => absurd h hne)

/-- C4 witness: the amended statement holds on the concrete input of three
successful requests followed by a producer fault. -/
theorem c4_witness :
    (exFaultThree.fault = true ∧ distinctIds exFaultThree.reqs ∧
        allOk exFaultThree.reqs) ∧
      (stream_requests (fun v => v) exFaultThree).ending = .hang ∧
        (stream_requests (fun v => v) exFaultThree).yields.length
            = exFaultThree.reqs.length ∧
          (stream_requests (fun v => v) exFaultThree).eoi_calls = 0 ∧
          ∀ pf : Nat,
            (stream_requests_with_prefetch (fun v => v) exFaultThree pf).ending
              = .producerFault :=
  ⟨⟨rfl,
    by show (exFaultThree.reqs.map Req.request_id).Nodup; decide,
    by show ∀ r ∈ exFaultThree.reqs, isOk r.outcome = true; decide⟩,
    c4_producer_fault_behaviour (fun v => v) exFaultThree rfl
      (by show (exFaultThree.reqs.map Req.request_id).Nodup; decide)
      (by show ∀ r ∈ exFaultThree.reqs, isOk r.outcome = true; decide)⟩

/-- C2 counterexample: two requests with window size 1 (so L > N), where the
single windowed operation fails: the stream dies at the failure, so only 1 of
the 2 requests is ever dispatched, not exactly L as claimed. -/
theorem c2_counterexample_failed_outcome :
    exErrFirst.reqs.length = 2 ∧ (1 : Nat) < exErrFirst.reqs.length ∧
      exErrFirst.fault = false ∧
      (stream_requests_with_prefetch (fun v => v) exErrFirst 1).dispatched
        = [0] ∧
      (stream_requests_with_prefetch (fun v => v) exErrFirst 1).yields = [] ∧
      (stream_requests_with_prefetch (fun v => v) exErrFirst 1).ending
        = .failed 99 := by
  refine ⟨rfl, by decide, rfl, ?_, ?_, ?_⟩ <;>
    simp [stream_requests_with_prefetch, iterate_requests, drain_loop,
      sortByTime, List.insertionSort, List.orderedInsert, exErrFirst]

/-- C2 amended: with every operation completing successfully and no producer
fault, the prefetch engine with window size N at least 1 behaves as claimed:
for 0 < L at most N, all L results are drained in one pass in completion
order, all L dispatches are the source requests in order and none is a
refill; for L > N exactly L requests are dispatched in total (the source in
order) and the stream ends normally; in every case the number of dispatches
is at most the initial window size plus one per yielded result.  When an
operation fails, dispatching stops with the stream (see the
counterexample). -/
theorem c2_prefetch_dispatch_bounds (f : ρ → σ) (inp : Input ρ ε) (pf : Nat)
    (hfault : inp.fault = false) (hok : allOk inp.reqs) (hpf : 1 ≤ pf) :
    (0 < inp.reqs.length → inp.reqs.length ≤ pf →
        (stream_requests_with_prefetch f inp pf).yields
            = okVals f (completionQueue inp.reqs) ∧
          (stream_requests_with_prefetch f inp pf).dispatched
            = inp.reqs.map Req.request_id ∧
          (stream_requests_with_prefetch f inp pf).ending = .normal) ∧
      (pf < inp.reqs.length →
        (stream_requests_with_prefetch f inp pf).yields.length
            = inp.reqs.length ∧
          (stream_requests_with_prefetch f inp pf).dispatched
            = inp.reqs.map Req.request_id ∧
          (stream_requests_with_prefetch f inp pf).ending = .normal) ∧
      (stream_requests_with_prefetch f inp pf).dispatched.length
        ≤ min inp.reqs.length pf
            + (stream_requests_with_prefetch f inp pf).yields.length := by
  obtain ⟨reqs, fault⟩ := inp
  simp only at hfault hok ⊢
  subst hfault
  refine ⟨fun hpos hle => prefetch_all_ok_le f pf hok hpos hle,
    fun hgt => prefetch_all_ok_gt f pf hok (by omega) hgt, ?_⟩
  rcases Nat.lt_trichotomy reqs.length pf with hlt | heq | hgt
  · by_cases hz : reqs.length = 0
    · have : reqs = [] := List.length_eq_zero.mp hz
      subst this
      simp [stream_requests_with_prefetch, iterate_requests]
    · have h := prefetch_all_ok_le f pf hok (by omega) (by omega)
      rw [h.1, h.2.1, List.length_map,
        length_okVals f (allOkE_completionQueue hok), length_completionQueue]
      omega
  · have h := prefetch_all_ok_le f pf hok (by omega) (by omega)
    rw [h.1, h.2.1, List.length_map,
      length_okVals f (allOkE_completionQueue hok), length_completionQueue]
    omega
  · have h := prefetch_all_ok_gt f pf hok (by omega) hgt
    rw [h.1, h.2.1, List.length_map]
    omega

/-- C2 witness: the amended statement holds on the three-request scenario
input with window size 2 (so L > N: three dispatches, three yields). -/
theorem c2_witness :
    (exScenarioA.fault = false ∧ allOk exScenarioA.reqs ∧ (1 : Nat) ≤ 2) ∧
      ((0 < exScenarioA.reqs.length → exScenarioA.reqs.length ≤ 2 →
          (stream_requests_with_prefetch (fun v => v) exScenarioA 2).yields
              = okVals (fun v => v) (completionQueue exScenarioA.reqs) ∧
            (stream_requests_with_prefetch (fun v => v) exScenarioA 2).dispatched
              = exScenarioA.reqs.map Req.request_id ∧
            (stream_requests_with_prefetch (fun v => v) exScenarioA 2).ending
              = .normal) ∧
        (2 < exScenarioA.reqs.length →
          (stream_requests_with_prefetch (fun v => v) exScenarioA 2).yields.length
              = exScenarioA.reqs.length ∧
            (stream_requests_with_prefetch (fun v => v) exScenarioA 2).dispatched
              = exScenarioA.reqs.map Req.request_id ∧
            (stream_requests_with_prefetch (fun v => v) exScenarioA 2).ending
              = .normal) ∧
        (stream_requests_with_prefetch (fun v => v) exScenarioA 2).dispatched.length
          ≤ min exScenarioA.reqs.length 2
              + (stream_requests_with_prefetch (fun v => v) exScenarioA 2).yields.length) :=
  ⟨⟨rfl, by show ∀ r ∈ exScenarioA.reqs, isOk r.outcome = true; decide,
    by decide⟩,
    c2_prefetch_dispatch_bounds (fun v => v) exScenarioA 2 rfl
      (by show ∀ r ∈ exScenarioA.reqs, isOk r.outcome = true; decide)
      (by decide)⟩

/-- C5 counterexample: prefetch size 2 on four successful requests where the
refilled request 2 (completion time 3) finishes before request 0 of the first
window (completion time 10): the engine yields [2, 1, 3, 4] although the
global completion order of the operations gives [2, 3, 1, 4], so prefetch
yields are not globally in completion order. -/
theorem c5_counterexample_cross_window :
    exCross.fault = false ∧ distinctIds exCross.reqs ∧ allOk exCross.reqs ∧
      (stream_requests_with_prefetch (fun v => v) exCross 2).yields
        = [2, 1, 3, 4] ∧
      okVals (fun v => v) (completionQueue exCross.reqs) = [2, 3, 1, 4] ∧
      (stream_requests_with_prefetch (fun v => v) exCross 2).yields
        ≠ okVals (fun v => v) (completionQueue exCross.reqs) := by
  refine ⟨rfl,
    by show (exCross.reqs.map Req.request_id).Nodup; decide,
    by show ∀ r ∈ exCross.reqs, isOk r.outcome = true; decide,
    ?_, by decide, ?_⟩ <;>
    simp [stream_requests_with_prefetch, iterate_requests, drain_loop,
      sortByTime, List.insertionSort, List.orderedInsert, exCross,
      completionQueue, okVals]

/-- C5 amended: both engines call handle_request strictly in source order (for
the prefetch engine shown under successful outcomes, where all L requests are
dispatched; a failure stops later dispatches).  The unbounded engine yields
strictly in global completion order, which is a permutation of source order,
and on the spec scenario (delays 30/10/20) yields [B, C, A].  The prefetch
engine drains each window in completion order, but across window boundaries a
refilled operation completing earlier is still yielded later, so its yield
order is not the global completion order (see the counterexample). -/
theorem c5_dispatch_source_order_yield_completion_order (f : ρ → σ)
    (inp : Input ρ ε) (pf : Nat) (hfault : inp.fault = false)
    (hdist : distinctIds inp.reqs) (hok : allOk inp.reqs) (hpf : 1 ≤ pf) :
    (stream_requests f inp).dispatched = inp.reqs.map Req.request_id ∧
      (stream_requests_with_prefetch f inp pf).dispatched
        = inp.reqs.map Req.request_id ∧
      (stream_requests f inp).yields = okVals f (completionQueue inp.reqs) ∧
      ((completionQueue inp.reqs).map fun p => p.2.request_id).Perm
        (inp.reqs.map Req.request_id) ∧
      (stream_requests (fun v => v) exScenarioA).yields = [200, 300, 100] := by
  refine ⟨rfl, ?_, (stream_requests_all_ok f inp hfault hdist hok).1,
    map_rid_completionQueue_perm inp.reqs, rfl⟩
  obtain ⟨reqs, fault⟩ := inp
  simp only at hfault hok ⊢
  subst hfault
  rcases Nat.lt_trichotomy reqs.length pf with hlt | heq | hgt
  · by_cases hz : reqs.length = 0
    · have : reqs = [] := List.length_eq_zero.mp hz
      subst this
      simp [stream_requests_with_prefetch, iterate_requests]
    · exact (prefetch_all_ok_le f pf hok (by omega) (by omega)).2.1
  · exact (prefetch_all_ok_le f pf hok (by omega) (by omega)).2.1
  · exact (prefetch_all_ok_gt f pf hok (by omega) hgt).2.1

/-- C5 witness: the amended statement holds on the cross-window input with
window size 2. -/
theorem c5_witness :
    (exCross.fault = false ∧ distinctIds exCross.reqs ∧ allOk exCross.reqs ∧
        (1 : Nat) ≤ 2) ∧
      (stream_requests (fun v => v) exCross).dispatched
          = exCross.reqs.map Req.request_id ∧
        (stream_requests_with_prefetch (fun v => v) exCross 2).dispatched
          = exCross.reqs.map Req.request_id ∧
        (stream_requests (fun v => v) exCross).yields
          = okVals (fun v => v) (completionQueue exCross.reqs) ∧
        ((completionQueue exCross.reqs).map fun p => p.2.request_id).Perm
          (exCross.reqs.map Req.request_id) ∧
        (stream_requests (fun v => v) exScenarioA).yields = [200, 300, 100] :=
  ⟨⟨rfl,
    by show (exCross.reqs.map Req.request_id).Nodup; decide,
    by show ∀ r ∈ exCross.reqs, isOk r.outcome = true; decide,
    by decide⟩,
    c5_dispatch_source_order_yield_completion_order (fun v => v) exCross 2 rfl
      (by show (exCross.reqs.map Req.request_id).Nodup; decide)
      (by show ∀ r ∈ exCross.reqs, isOk r.outcome = true; decide)
      (by decide)⟩

/-- C8: the completion notifier only enqueues the pair of request identifier
and operation handle, leaving the outcome untouched (replacing the outcome
changes nothing about what correlation data the notifier produces), and in
every execution of either engine the consumed dispatch positions are pairwise
distinct: no operation's outcome is ever read twice, and outcomes are read
only at the yield point, so the number of reads equals the number of yields
plus at most one (the read whose failure terminates the stream). -/
theorem c8_consume_once_notifier_blind (f : ρ → σ) (inp : Input ρ ε)
    (pf : Nat) :
    (∀ (i : Nat) (r : Req ρ ε) (o : Except ε ρ),
        callback_entry i (setOutcome r o)
          = (r.request_id, (i, setOutcome r o))) ∧
      (stream_requests f inp).consumed.Nodup ∧
      (stream_requests_with_prefetch f inp pf).consumed.Nodup ∧
      (stream_requests f inp).yields.length
        ≤ (stream_requests f inp).consumed.length ∧
      (stream_requests f inp).consumed.length
        ≤ (stream_requests f inp).yields.length + 1 ∧
      (stream_requests_with_prefetch f inp pf).yields.length
        ≤ (stream_requests_with_prefetch f inp pf).consumed.length ∧
      (stream_requests_with_prefetch f inp pf).consumed.length
        ≤ (stream_requests_with_prefetch f inp pf).yields.length + 1 :=
  ⟨fun _ _ _ => rfl,
    stream_requests_consumed_nodup f inp,
    prefetch_consumed_nodup f inp pf,
    (stream_requests_len_rel f inp).1,
    (stream_requests_len_rel f inp).2,
    (prefetch_len_rel f inp pf).1,
    (prefetch_len_rel f inp pf).2⟩

/-- C9 counterexample: there is no execution of the prefetch engine with
window size N at least 1 in which the count of dispatched-but-unyielded
requests exceeds N, even transiently in steady state: the claimed overshoot
does not exist. -/
theorem c9_counterexample_no_overshoot :
    ¬ ∃ (inp : Input Nat Nat) (pf : Nat), 1 ≤ pf ∧ pf < inp.reqs.length ∧
      pf < (stream_requests_with_prefetch (fun v => v) inp pf).peak_inflight := by
  rintro ⟨inp, pf, hpf, _, hup⟩
  have := prefetch_peak_le (fun v => v) inp pf hpf
  omega

/-- C9 amended: the prefetch window bound is a hard cap, not a soft one: in
every execution of the prefetch engine with window size N at least 1 (any
input, any fault behaviour, any outcomes), the peak count of
dispatched-but-unyielded requests never exceeds N; each refill is dispatched
only after a yield freed its slot. -/
theorem c9_hard_cap (f : ρ → σ) (inp : Input ρ ε) (pf : Nat) (hpf : 1 ≤ pf) :
    (stream_requests_with_prefetch f inp pf).peak_inflight ≤ pf :=
  prefetch_peak_le f inp pf hpf

/-- C9 witness: the amended statement applied at the cross-window input with
window size 2. -/
theorem c9_witness :
    (1 : Nat) ≤ 2 ∧
      (stream_requests_with_prefetch (fun v => v) exCross 2).peak_inflight
        ≤ 2 :=
  ⟨by decide, c9_hard_cap (fun v => v) exCross 2 (by decide)⟩

end Jina
